import Mathlib

set_option maxRecDepth 40000

/-!
# PSBT value (de)serialization — verification development

Shallow embedding of `src/util/psbt/serialize.rs` (rust-bitcoin): the PSBT
codec layer for scripts, public keys, transactions and key-origin
descriptors `(Fingerprint, Vec<ChildNumber>)`.

Bytes are modelled as `List Nat` (each entry a byte value `< 256`);
machine `u32` values are `Nat` taken modulo `2 ^ 32` where relevant.
`encode::Error` is modelled by `EncodeError`; `io::ErrorKind::UnexpectedEof`
becomes `EncodeError.unexpectedEof` and `encode::Error::ParseFailed(msg)`
becomes `EncodeError.parseFailed msg`.
-/

/-- The error type of the codec layer, embedding `consensus::encode::Error`:
end-of-input (`io::ErrorKind::UnexpectedEof`) or a tagged parse failure. -/
inductive EncodeError
  | unexpectedEof
  | parseFailed (msg : String)
deriving DecidableEq

deriving instance DecidableEq for Except

/-- Modelled from the spec: a derivation step (`util::bip32::ChildNumber`,
whose source is outside this crate slice) is a 32-bit index, with indices at
or above `2 ^ 31` denoting hardened derivation by the high-bit convention. -/
inductive ChildNumber
  | normal (index : Nat)
  | hardened (index : Nat)
deriving DecidableEq

/-- Modelled from the spec: `<ChildNumber as From<u32>>::from` — the high bit
selects hardened derivation, the low 31 bits are the index. Total on `u32`. -/
def ChildNumber.fromU32 (n : Nat) : ChildNumber :=
  if n < 2 ^ 31 then .normal n else .hardened (n - 2 ^ 31)

/-- Modelled from the spec: `u32::from(cnum)` — reattach the high bit for
hardened steps. -/
def ChildNumber.toU32 : ChildNumber → Nat
  | .normal index => index
  | .hardened index => 2 ^ 31 + index

/-- A `ChildNumber` producible by this core: its 31-bit index is in range. -/
def ChildNumber.Valid : ChildNumber → Prop
  | .normal index => index < 2 ^ 31
  | .hardened index => index < 2 ^ 31

instance : DecidablePred ChildNumber.Valid := fun c =>
  match c with
  | .normal index => (inferInstance : Decidable (index < 2 ^ 31))
  | .hardened index => (inferInstance : Decidable (index < 2 ^ 31))

/-- The consensus encoding of a `u32`: 4 bytes, little-endian
(`consensus::encode::serialize(&u32)`). -/
def serU32 (n : Nat) : List Nat :=
  [n % 256, n / 256 % 256, n / 65536 % 256, n / 16777216 % 256]

/-- The value read back by `Decodable::consensus_decode` for `u32` from four
little-endian bytes. -/
def leU32 (b0 b1 b2 b3 : Nat) : Nat :=
  b0 + 256 * b1 + 65536 * b2 + 16777216 * b3

/-- A script (`blockdata::script::Script`): a raw unvalidated byte string. -/
structure Script where
  bytes : List Nat
deriving DecidableEq

/-- `impl Serialize for Script`: `self.to_bytes()` — the raw bytes. -/
def scriptSerialize (s : Script) : List Nat :=
  s.bytes

/-- `impl Deserialize for Script`: `Ok(Self::from(bytes.to_vec()))` — always
succeeds, wrapping the input bytes. -/
def scriptDeserialize (bytes : List Nat) : Except EncodeError Script :=
  .ok ⟨bytes⟩

/-- `impl Serialize for (Fingerprint, Vec<ChildNumber>)`: the 4 fingerprint
bytes (`self.0.to_bytes()`), then for each `cnum` in order the consensus
encoding of `u32::from(cnum.clone())`. The fingerprint is modelled as its
4-byte list. -/
def keyOriginSerialize (fprint : List Nat) (dpath : List ChildNumber) : List Nat :=
  fprint ++ (dpath.map fun cnum => serU32 cnum.toU32).flatten

/-- The decode loop of `impl Deserialize for (Fingerprint, Vec<ChildNumber>)`,
acting on the cursor over `bytes[4..]`: repeatedly `consensus_decode` a `u32`
(consuming four little-endian bytes, failing with end-of-input when fewer than
four remain), push `ChildNumber::from(index)`, and break exactly when the
cursor position equals the remaining length — i.e. when no bytes are left. -/
def decodeLoop : List Nat → Except EncodeError (List ChildNumber)
  | b0 :: b1 :: b2 :: b3 :: rest =>
    let index := leU32 b0 b1 b2 b3
    if rest = [] then
      .ok [ChildNumber.fromU32 index]
    else
      match decodeLoop rest with
      | .ok dpath => .ok (ChildNumber.fromU32 index :: dpath)
      | .error e => .error e
  | _ => .error .unexpectedEof

/-- `impl Deserialize for (Fingerprint, Vec<ChildNumber>)`: reject inputs
shorter than 4 bytes with end-of-input, read `Fingerprint::from(&bytes[0..4])`,
then run the decode loop over the remaining bytes. -/
def keyOriginDeserialize (bytes : List Nat) :
    Except EncodeError (List Nat × List ChildNumber) :=
  if bytes.length < 4 then
    .error .unexpectedEof
  else
    match decodeLoop (bytes.drop 4) with
    | .ok dpath => .ok (bytes.take 4, dpath)
    | .error e => .error e

/-- The sequence of consensus-decoded 32-bit values in a byte string, read as
consecutive 4-byte little-endian groups (the values the decode loop reads). -/
def u32Groups : List Nat → List Nat
  | b0 :: b1 :: b2 :: b3 :: rest => leU32 b0 b1 b2 b3 :: u32Groups rest
  | _ => []

section PublicKeyModel

/-- The secp256k1 field modulus `2 ^ 256 - 2 ^ 32 - 977`. -/
def secpP : Nat := 2 ^ 256 - 2 ^ 32 - 977

/-- Fuel-driven binary modular exponentiation (structural, so concrete
instances reduce in the kernel). -/
def powModAux : Nat → Nat → Nat → Nat → Nat → Nat
  | 0, _, _, _, acc => acc
  | fuel + 1, m, b, e, acc =>
    if e = 0 then acc
    else powModAux fuel m (b * b % m) (e / 2)
      (if e % 2 = 1 then acc * b % m else acc)

/-- `b ^ e % m` by binary exponentiation (256 bits of fuel suffice here). -/
def powMod (b e m : Nat) : Nat :=
  powModAux 257 m (b % m) e (1 % m)

/-- The square-root candidate `a ^ ((p + 1) / 4) mod p` used by the curve
library for compressed-point decoding (valid since `p ≡ 3 mod 4`). -/
def sqrtCandidate (a : Nat) : Nat :=
  powMod a ((secpP + 1) / 4) secpP

/-- Whether `a` has a square root modulo `secpP`: the candidate squares back
to `a` (this is how the curve library validates a compressed x-coordinate). -/
def hasSquareRoot (a : Nat) : Bool :=
  sqrtCandidate a * sqrtCandidate a % secpP = a % secpP

/-- Big-endian byte string of fixed width `k` for `n % 256 ^ k`. -/
def beBytes : Nat → Nat → List Nat
  | 0, _ => []
  | k + 1, n => beBytes k (n / 256) ++ [n % 256]

/-- The integer read from a big-endian byte string. -/
def fromBe (l : List Nat) : Nat :=
  l.foldl (fun acc b => acc * 256 + b) 0

/-- Modelled from the spec: a secp256k1 public key (`secp256k1::PublicKey`,
an external collaborator) — an affine point recorded by its x-coordinate and
the parity of its y-coordinate, which is exactly the content of the canonical
compressed point representation. -/
structure PublicKey where
  x : Nat
  yOdd : Bool
deriving DecidableEq

/-- A point producible by this core: the x-coordinate is a field element and
`x ^ 3 + 7` has a square root, so a y-coordinate of each parity exists. -/
def PublicKey.Valid (pk : PublicKey) : Prop :=
  pk.x < secpP ∧ hasSquareRoot ((pk.x ^ 3 + 7) % secpP) = true

instance : DecidablePred PublicKey.Valid := fun pk =>
  (inferInstance : Decidable (pk.x < secpP ∧ hasSquareRoot ((pk.x ^ 3 + 7) % secpP) = true))

/-- Modelled from the spec: `PublicKey::from_slice` of the curve library —
accept a 33-byte compressed encoding (tag 2 or 3 plus a valid x-coordinate)
or a 65-byte uncompressed encoding (tag 4 plus an on-curve affine pair). -/
def pubkeyFromSlice (bytes : List Nat) : Option PublicKey :=
  match bytes with
  | tag :: rest =>
    if tag = 2 ∧ rest.length = 32 then
      let x := fromBe rest
      if x < secpP ∧ hasSquareRoot ((x ^ 3 + 7) % secpP) = true then
        some ⟨x, false⟩
      else none
    else if tag = 3 ∧ rest.length = 32 then
      let x := fromBe rest
      if x < secpP ∧ hasSquareRoot ((x ^ 3 + 7) % secpP) = true then
        some ⟨x, true⟩
      else none
    else if tag = 4 ∧ rest.length = 64 then
      let x := fromBe (rest.take 32)
      let y := fromBe (rest.drop 32)
      if x < secpP ∧ y < secpP ∧ y * y % secpP = (x ^ 3 + 7) % secpP then
        some ⟨x, y % 2 = 1⟩
      else none
    else none
  | [] => none

/-- `impl Serialize for PublicKey`: `self.serialize().to_vec()` — the
33-byte compressed representation: tag 2 (even y) or 3 (odd y), then the
32-byte big-endian x-coordinate. -/
def pubkeySerialize (pk : PublicKey) : List Nat :=
  (if pk.yOdd then 3 else 2) :: beBytes 32 pk.x

/-- `impl Deserialize for PublicKey`: `PublicKey::from_slice(...)` with every
library error mapped to `ParseFailed("invalid public key")`. -/
def pubkeyDeserialize (bytes : List Nat) : Except EncodeError PublicKey :=
  match pubkeyFromSlice bytes with
  | some pk => .ok pk
  | none => .error (.parseFailed "invalid public key")

end PublicKeyModel

section TransactionModel

/-- Modelled from the spec: `impl_psbt_de_serialize!(Transaction)` (the macro
lives outside this crate slice) delegates `Serialize::serialize` directly to
the consensus encoder of the transaction type. -/
def txSerialize {α : Type} (enc : α → List Nat) (t : α) : List Nat :=
  enc t

/-- Modelled from the spec: `impl_psbt_de_serialize!(Transaction)` delegates
`Deserialize::deserialize` directly to the consensus decoder, surfacing any
error unchanged. -/
def txDeserialize {α : Type} (dec : List Nat → Except EncodeError α)
    (bytes : List Nat) : Except EncodeError α :=
  dec bytes

end TransactionModel

/-- x-coordinate of the secp256k1 base point (a concrete on-curve point used
to instantiate the public-key theorems). -/
def gX : Nat := 0x79BE667EF9DCBBAC55A06295CE870B07029BFCDB2DCE28D959F2815B16F81798

/-- y-coordinate of the secp256k1 base point (even). -/
def gY : Nat := 0x483ADA7726A3C4655DA4FBFC0E1108A8FD17B448A68554199C47D08FFB10D4B8

/-- The 65-byte uncompressed encoding of the secp256k1 base point. -/
def uncompressedG : List Nat := 4 :: (beBytes 32 gX ++ beBytes 32 gY)

/-! ## Helper lemmas -/

theorem serU32_def (n : Nat) :
    serU32 n = [n % 256, n / 256 % 256, n / 65536 % 256, n / 16777216 % 256] :=
  rfl

theorem leU32_serU32 (n : Nat) (h : n < 2 ^ 32) :
    leU32 (n % 256) (n / 256 % 256) (n / 65536 % 256) (n / 16777216 % 256) = n := by
  simp only [leU32]
  omega

theorem ChildNumber.toU32_lt (c : ChildNumber) (h : c.Valid) : c.toU32 < 2 ^ 32 := by
  cases c <;> simp only [ChildNumber.Valid, ChildNumber.toU32] at h ⊢ <;> omega

theorem ChildNumber.fromU32_toU32 (c : ChildNumber) (h : c.Valid) :
    ChildNumber.fromU32 c.toU32 = c := by
  cases c with
  | normal index =>
    simp only [ChildNumber.Valid] at h
    simp only [ChildNumber.fromU32, ChildNumber.toU32]
    rw [if_pos h]
  | hardened index =>
    simp only [ChildNumber.Valid] at h
    simp only [ChildNumber.fromU32, ChildNumber.toU32]
    rw [if_neg (by omega)]
    simp

theorem ChildNumber.valid_fromU32 (n : Nat) (h : n < 2 ^ 32) :
    (ChildNumber.fromU32 n).Valid := by
  simp only [ChildNumber.fromU32]
  split <;> simp only [ChildNumber.Valid] <;> omega

/-- The decode loop succeeds on a nonempty byte string whose length is a
multiple of four, returning every 4-byte group as a step, in order. -/
theorem decodeLoop_ok (l : List Nat) (hne : l ≠ []) (hlen : l.length % 4 = 0) :
    decodeLoop l = .ok ((u32Groups l).map ChildNumber.fromU32) := by
  induction l using decodeLoop.induct with
  | case1 b0 b1 b2 b3 =>
    simp [decodeLoop, u32Groups]
  | case2 b0 b1 b2 b3 rest hrest dpath hok ih =>
    have hlen4 : rest.length % 4 = 0 := by
      simp only [List.length_cons] at hlen
      omega
    simp only [decodeLoop, if_neg hrest, ih hrest hlen4, u32Groups, List.map_cons]
  | case3 b0 b1 b2 b3 rest hrest e herr ih =>
    have hlen4 : rest.length % 4 = 0 := by
      simp only [List.length_cons] at hlen
      omega
    rw [ih hrest hlen4] at herr
    exact Except.noConfusion herr
  | case4 t hno =>
    exfalso
    rcases t with _ | ⟨a, _ | ⟨b, _ | ⟨c, _ | ⟨d, rest⟩⟩⟩⟩
    · exact hne rfl
    · simp at hlen
    · simp at hlen
    · simp at hlen
    · exact hno a b c d rest rfl

/-- The decode loop fails with end-of-input on the empty string and on any
string whose length is not a multiple of four. -/
theorem decodeLoop_error (l : List Nat) (h : l = [] ∨ l.length % 4 ≠ 0) :
    decodeLoop l = .error .unexpectedEof := by
  induction l using decodeLoop.induct with
  | case1 b0 b1 b2 b3 =>
    rcases h with h | h
    · exact absurd h (by simp)
    · simp at h
  | case2 b0 b1 b2 b3 rest hrest dpath hok ih =>
    have hmod : rest.length % 4 ≠ 0 := by
      rcases h with h | h
      · exact absurd h (by simp)
      · simp only [List.length_cons] at h
        omega
    rw [ih (Or.inr hmod)] at hok
    exact Except.noConfusion hok
  | case3 b0 b1 b2 b3 rest hrest e herr ih =>
    have hmod : rest.length % 4 ≠ 0 := by
      rcases h with h | h
      · exact absurd h (by simp)
      · simp only [List.length_cons] at h
        omega
    rw [ih (Or.inr hmod)] at herr
    cases herr
    simp only [decodeLoop, if_neg hrest]
    rw [ih (Or.inr hmod)]
  | case4 t hno =>
    rcases t with _ | ⟨a, _ | ⟨b, _ | ⟨c, _ | ⟨d, rest⟩⟩⟩⟩
    · rfl
    · rfl
    · rfl
    · rfl
    · exact absurd rfl (hno a b c d rest)

/-- Success characterization of the decode loop. -/
theorem decodeLoop_ok_iff (l : List Nat) :
    (∃ v, decodeLoop l = .ok v) ↔ (l ≠ [] ∧ l.length % 4 = 0) := by
  constructor
  · rintro ⟨v, hv⟩
    by_contra hcon
    rw [not_and_or, not_not] at hcon
    rw [decodeLoop_error l (by tauto)] at hv
    exact Except.noConfusion hv
  · rintro ⟨hne, hlen⟩
    exact ⟨_, decodeLoop_ok l hne hlen⟩

theorem u32Groups_length (l : List Nat) : (u32Groups l).length = l.length / 4 := by
  induction l using u32Groups.induct with
  | case1 b0 b1 b2 b3 rest ih =>
    simp only [u32Groups, List.length_cons, ih]
    omega
  | case2 t hno =>
    rcases t with _ | ⟨a, _ | ⟨b, _ | ⟨c, _ | ⟨d, rest⟩⟩⟩⟩
    · simp [u32Groups]
    · rw [show u32Groups [a] = [] from rfl]
      simp
    · rw [show u32Groups [a, b] = [] from rfl]
      simp
    · rw [show u32Groups [a, b, c] = [] from rfl]
      simp
    · exact absurd rfl (hno a b c d rest)

/-- Reading the 4-byte groups of a serialized derivation path recovers the
`u32` values of its steps. -/
theorem u32Groups_flatten_ser (dpath : List ChildNumber)
    (hv : ∀ c ∈ dpath, c.Valid) :
    u32Groups ((dpath.map fun cnum => serU32 cnum.toU32).flatten) =
      dpath.map ChildNumber.toU32 := by
  induction dpath with
  | nil => rfl
  | cons c rest ih =>
    have hc : c.Valid := hv c (List.mem_cons_self c rest)
    have hrest : ∀ x ∈ rest, x.Valid := fun x hx => hv x (List.mem_cons_of_mem c hx)
    simp only [List.map_cons, List.flatten_cons, serU32_def, List.cons_append,
      List.append_eq, List.nil_append, u32Groups]
    rw [leU32_serU32 c.toU32 (c.toU32_lt hc)]
    have hih := ih hrest
    simp only [serU32_def] at hih
    rw [hih]

theorem flatten_ser_length (dpath : List ChildNumber) :
    ((dpath.map fun cnum => serU32 cnum.toU32).flatten).length = 4 * dpath.length := by
  induction dpath with
  | nil => rfl
  | cons c rest ih =>
    simp only [List.map_cons, List.flatten_cons, List.length_append, ih, List.length_cons]
    have h4 : (serU32 c.toU32).length = 4 := rfl
    omega

/-- Success characterization of key-origin deserialization: exactly the inputs
of length at least 8 and divisible by 4. -/
theorem keyOriginDeserialize_ok_iff (bytes : List Nat) :
    (∃ v, keyOriginDeserialize bytes = .ok v) ↔
      (8 ≤ bytes.length ∧ bytes.length % 4 = 0) := by
  constructor
  · rintro ⟨v, hv⟩
    simp only [keyOriginDeserialize] at hv
    by_cases hlt : bytes.length < 4
    · rw [if_pos hlt] at hv
      exact Except.noConfusion hv
    · rw [if_neg hlt] at hv
      cases h : decodeLoop (bytes.drop 4) with
      | error e =>
        rw [h] at hv
        exact Except.noConfusion hv
      | ok dpath =>
        obtain ⟨hne, hmod⟩ := (decodeLoop_ok_iff (bytes.drop 4)).mp ⟨_, h⟩
        have hpos : 0 < (bytes.drop 4).length := List.length_pos.mpr hne
        rw [List.length_drop] at hpos hmod
        omega
  · rintro ⟨h8, hmod⟩
    have hne : bytes.drop 4 ≠ [] := by
      rw [← List.length_pos, List.length_drop]
      omega
    have hmod4 : (bytes.drop 4).length % 4 = 0 := by
      rw [List.length_drop]
      omega
    refine ⟨(bytes.take 4, (u32Groups (bytes.drop 4)).map ChildNumber.fromU32), ?_⟩
    simp only [keyOriginDeserialize, if_neg (by omega : ¬ bytes.length < 4),
      decodeLoop_ok (bytes.drop 4) hne hmod4]

/-- On success, the derivation path is the whole sequence of 4-byte groups
after the fingerprint, each mapped through `ChildNumber::from`. -/
theorem keyOriginDeserialize_steps (bytes : List Nat) (fprint : List Nat)
    (dpath : List ChildNumber)
    (h : keyOriginDeserialize bytes = .ok (fprint, dpath)) :
    fprint = bytes.take 4 ∧
      dpath = (u32Groups (bytes.drop 4)).map ChildNumber.fromU32 := by
  obtain ⟨h8, hmod⟩ := (keyOriginDeserialize_ok_iff bytes).mp ⟨_, h⟩
  have hne : bytes.drop 4 ≠ [] := by
    rw [← List.length_pos, List.length_drop]
    omega
  have hmod4 : (bytes.drop 4).length % 4 = 0 := by
    rw [List.length_drop]
    omega
  simp only [keyOriginDeserialize, if_neg (by omega : ¬ bytes.length < 4),
    decodeLoop_ok (bytes.drop 4) hne hmod4, Except.ok.injEq, Prod.mk.injEq] at h
  exact ⟨h.1.symm, h.2.symm⟩

/-- Round-trip for key-origin descriptors with a nonempty valid path. -/
theorem keyOrigin_roundtrip (fprint : List Nat) (dpath : List ChildNumber)
    (hfp : fprint.length = 4) (hne : dpath ≠ [])
    (hv : ∀ c ∈ dpath, c.Valid) :
    keyOriginDeserialize (keyOriginSerialize fprint dpath) = .ok (fprint, dpath) := by
  have hflat : ((dpath.map fun cnum => serU32 cnum.toU32).flatten).length
      = 4 * dpath.length := flatten_ser_length dpath
  have hlen : (keyOriginSerialize fprint dpath).length = 4 + 4 * dpath.length := by
    simp only [keyOriginSerialize, List.length_append, hfp, hflat]
  have hdpos : 0 < dpath.length := List.length_pos.mpr hne
  have hdrop : (keyOriginSerialize fprint dpath).drop 4
      = (dpath.map fun cnum => serU32 cnum.toU32).flatten := by
    simp only [keyOriginSerialize]
    rw [show 4 = fprint.length from hfp.symm, List.drop_left]
  have htake : (keyOriginSerialize fprint dpath).take 4 = fprint := by
    simp only [keyOriginSerialize]
    rw [show 4 = fprint.length from hfp.symm, List.take_left]
  have hdne : (dpath.map fun cnum => serU32 cnum.toU32).flatten ≠ [] := by
    rw [← List.length_pos, hflat]
    omega
  have hdmod : ((dpath.map fun cnum => serU32 cnum.toU32).flatten).length % 4 = 0 := by
    rw [hflat]
    omega
  have hdec := decodeLoop_ok _ hdne hdmod
  have hmap : ((dpath.map ChildNumber.toU32).map ChildNumber.fromU32) = dpath := by
    rw [List.map_map]
    exact (List.map_congr_left fun c hc =>
      ChildNumber.fromU32_toU32 c (hv c hc)).trans (List.map_id dpath)
  simp only [keyOriginDeserialize,
    if_neg (by omega : ¬ (keyOriginSerialize fprint dpath).length < 4),
    hdrop, htake, hdec, u32Groups_flatten_ser dpath hv, hmap]

theorem beBytes_length (k n : Nat) : (beBytes k n).length = k := by
  induction k generalizing n with
  | zero => rfl
  | succ k ih =>
    simp only [beBytes, List.length_append, ih, List.length_cons, List.length_nil]

theorem fromBe_append_byte (l : List Nat) (b : Nat) :
    fromBe (l ++ [b]) = fromBe l * 256 + b := by
  simp [fromBe, List.foldl_append]

theorem fromBe_beBytes (k n : Nat) (h : n < 256 ^ k) :
    fromBe (beBytes k n) = n := by
  induction k generalizing n with
  | zero =>
    interval_cases n
    rfl
  | succ k ih =>
    have hdiv : n / 256 < 256 ^ k := by
      rw [Nat.div_lt_iff_lt_mul (by norm_num)]
      calc n < 256 ^ (k + 1) := h
        _ = 256 ^ k * 256 := by ring
    simp only [beBytes, fromBe_append_byte, ih (n / 256) hdiv]
    omega

/-- Round-trip for valid public keys: the compressed encoding re-parses to
the same point. -/
theorem pubkey_roundtrip (pk : PublicKey) (hv : pk.Valid) :
    pubkeyDeserialize (pubkeySerialize pk) = .ok pk := by
  obtain ⟨x, yOdd⟩ := pk
  simp only [PublicKey.Valid] at hv
  obtain ⟨hx, hsq⟩ := hv
  have hlen : (beBytes 32 x).length = 32 := beBytes_length 32 x
  have hxlt : x < 256 ^ 32 := lt_trans hx (by norm_num [secpP])
  have hbe : fromBe (beBytes 32 x) = x := fromBe_beBytes 32 x hxlt
  cases yOdd with
  | false =>
    simp [pubkeySerialize, pubkeyDeserialize, pubkeyFromSlice, hlen, hbe, hx, hsq]
  | true =>
    simp [pubkeySerialize, pubkeyDeserialize, pubkeyFromSlice, hlen, hbe, hx, hsq]

/-! ## Claim theorems -/

/-- C1 (counterexample): the round-trip law fails as stated — the key-origin
pair with fingerprint `DE AD BE EF` and an empty step sequence serializes to
4 bytes, which deserialize rejects with an end-of-input error instead of
returning the pair. -/
theorem c1_counterexample :
    keyOriginDeserialize (keyOriginSerialize [222, 173, 190, 239] []) ≠
      .ok ([222, 173, 190, 239], []) ∧
    keyOriginDeserialize (keyOriginSerialize [222, 173, 190, 239] []) =
      .error .unexpectedEof := by
  constructor
  · decide
  · decide

/-- C1 (amended): `deserialize (serialize v) = ok v` for every script, every
valid public key, every key-origin pair with a 4-byte fingerprint, in-range
steps and a NONEMPTY derivation path (the empty-path pair fails to round-trip),
and — for the transaction codec, which delegates both directions verbatim —
whenever the underlying consensus codec round-trips. -/
theorem c1_roundtrip_amended :
    (∀ s : Script, scriptDeserialize (scriptSerialize s) = .ok s) ∧
    (∀ pk : PublicKey, pk.Valid → pubkeyDeserialize (pubkeySerialize pk) = .ok pk) ∧
    (∀ (fprint : List Nat) (dpath : List ChildNumber),
      fprint.length = 4 → dpath ≠ [] → (∀ c ∈ dpath, c.Valid) →
      keyOriginDeserialize (keyOriginSerialize fprint dpath) = .ok (fprint, dpath)) ∧
    (∀ (α : Type) (enc : α → List Nat) (dec : List Nat → Except EncodeError α),
      (∀ t, dec (enc t) = .ok t) →
      ∀ t, txDeserialize dec (txSerialize enc t) = .ok t) := by
  refine ⟨fun s => rfl, pubkey_roundtrip, keyOrigin_roundtrip, ?_⟩
  intro α enc dec h t
  exact h t

/-- C1 (witness): the amended round-trip law instantiated at a concrete
script, a concrete valid point (the base point, compressed), the key-origin
pair of the spec's end-to-end example, and a one-byte toy consensus codec. -/
theorem c1_roundtrip_amended_witness :
    scriptDeserialize (scriptSerialize ⟨[1, 2, 3]⟩) = .ok ⟨[1, 2, 3]⟩ ∧
    pubkeyDeserialize (pubkeySerialize ⟨gX, false⟩) = .ok ⟨gX, false⟩ ∧
    keyOriginDeserialize
      (keyOriginSerialize [222, 173, 190, 239]
        [ChildNumber.normal 0, ChildNumber.hardened 1]) =
      .ok ([222, 173, 190, 239], [ChildNumber.normal 0, ChildNumber.hardened 1]) ∧
    txDeserialize
      (fun bytes => match bytes with
        | [n] => .ok n
        | _ => .error .unexpectedEof)
      (txSerialize (fun n : Nat => [n]) 42) = .ok 42 := by
  obtain ⟨hs, hpk, hko, htx⟩ := c1_roundtrip_amended
  refine ⟨hs ⟨[1, 2, 3]⟩, hpk ⟨gX, false⟩ (by decide), ?_, ?_⟩
  · exact hko [222, 173, 190, 239] [ChildNumber.normal 0, ChildNumber.hardened 1]
      (by decide) (by decide) (by decide)
  · exact htx Nat (fun n => [n])
      (fun bytes => match bytes with
        | [n] => .ok n
        | _ => .error .unexpectedEof)
      (fun t => rfl) 42

/-- C2: an input of exactly `4 + 4 * N` bytes with `N ≥ 1` deserializes
successfully to the fingerprint made of the first 4 bytes and exactly `N`
steps, in order, each the image under `ChildNumber::from` of the
corresponding consensus-decoded 32-bit group. -/
theorem c2_exact_length_decodes (bytes : List Nat) (N : Nat)
    (hN : 1 ≤ N) (hlen : bytes.length = 4 + 4 * N) :
    keyOriginDeserialize bytes =
      .ok (bytes.take 4, (u32Groups (bytes.drop 4)).map ChildNumber.fromU32) ∧
    ((u32Groups (bytes.drop 4)).map ChildNumber.fromU32).length = N := by
  have hne : bytes.drop 4 ≠ [] := by
    rw [← List.length_pos, List.length_drop]
    omega
  have hmod : (bytes.drop 4).length % 4 = 0 := by
    rw [List.length_drop]
    omega
  constructor
  · simp only [keyOriginDeserialize, if_neg (by omega : ¬ bytes.length < 4),
      decodeLoop_ok (bytes.drop 4) hne hmod]
  · rw [List.length_map, u32Groups_length, List.length_drop]
    omega

/-- C2 (witness): a 16-byte input yields exactly the 3 ordered steps encoded
by its three 32-bit groups. -/
theorem c2_exact_length_decodes_witness :
    keyOriginDeserialize [1, 2, 3, 4, 5, 0, 0, 0, 6, 0, 0, 0, 0, 0, 0, 128] =
      .ok ([1, 2, 3, 4],
        [ChildNumber.normal 5, ChildNumber.normal 6, ChildNumber.hardened 0]) ∧
    ((u32Groups ([1, 2, 3, 4, 5, 0, 0, 0, 6, 0, 0, 0, 0, 0, 0, 128].drop 4)).map
      ChildNumber.fromU32).length = 3 := by
  obtain ⟨h1, h2⟩ := c2_exact_length_decodes
    [1, 2, 3, 4, 5, 0, 0, 0, 6, 0, 0, 0, 0, 0, 0, 128] 3 (by decide) (by decide)
  exact ⟨h1.trans (by decide), h2⟩

/-- C3: serializing a key-origin pair with a 4-byte fingerprint emits exactly
`4 + 4 * N` bytes — the fingerprint first (the first 4 bytes), then for each
step in order its 4-byte little-endian consensus encoding. -/
theorem c3_serialize_layout (fprint : List Nat) (dpath : List ChildNumber)
    (hfp : fprint.length = 4) :
    (keyOriginSerialize fprint dpath).length = 4 + 4 * dpath.length ∧
    (keyOriginSerialize fprint dpath).take 4 = fprint ∧
    (keyOriginSerialize fprint dpath).drop 4 =
      (dpath.map fun cnum => serU32 cnum.toU32).flatten := by
  refine ⟨?_, ?_, ?_⟩
  · simp only [keyOriginSerialize, List.length_append, hfp, flatten_ser_length]
  · simp only [keyOriginSerialize]
    rw [show 4 = fprint.length from hfp.symm, List.take_left]
  · simp only [keyOriginSerialize]
    rw [show 4 = fprint.length from hfp.symm, List.drop_left]

/-- C3 (witness): the spec's end-to-end example — fingerprint `DE AD BE EF`
with steps `[0, 0x80000001]` serializes to the 12-byte sequence
`DE AD BE EF` followed by the encodings of `0` and `0x80000001`. -/
theorem c3_serialize_layout_witness :
    (keyOriginSerialize [222, 173, 190, 239]
      [ChildNumber.normal 0, ChildNumber.hardened 1]).length = 4 + 4 * 2 ∧
    keyOriginSerialize [222, 173, 190, 239]
      [ChildNumber.normal 0, ChildNumber.hardened 1] =
      [222, 173, 190, 239, 0, 0, 0, 0, 1, 0, 0, 128] := by
  have h := c3_serialize_layout [222, 173, 190, 239]
    [ChildNumber.normal 0, ChildNumber.hardened 1] (by decide)
  exact ⟨h.1, by decide⟩

/-- C4: a 4-byte input (fingerprint with empty remainder) does NOT yield an
empty step sequence — the decode loop's first iteration hits the empty cursor
and the whole call fails with an end-of-input error. -/
theorem c4_len4_eof (bytes : List Nat) (h : bytes.length = 4) :
    keyOriginDeserialize bytes = .error .unexpectedEof ∧
    ∀ fprint dpath, keyOriginDeserialize bytes ≠ .ok (fprint, dpath) := by
  have hdrop : bytes.drop 4 = [] := List.drop_eq_nil_of_le (by omega)
  have heq : keyOriginDeserialize bytes = .error .unexpectedEof := by
    simp only [keyOriginDeserialize, if_neg (by omega : ¬ bytes.length < 4), hdrop,
      decodeLoop_error [] (Or.inl rfl)]
  exact ⟨heq, fun fprint dpath hok => Except.noConfusion (heq.symm.trans hok)⟩

/-- C4 (witness): the concrete 4-byte input `DE AD BE EF`. -/
theorem c4_len4_eof_witness :
    keyOriginDeserialize [222, 173, 190, 239] = .error .unexpectedEof ∧
    keyOriginDeserialize [222, 173, 190, 239] ≠ .ok ([222, 173, 190, 239], []) := by
  have h := c4_len4_eof [222, 173, 190, 239] (by decide)
  exact ⟨h.1, h.2 [222, 173, 190, 239] []⟩

/-- C5: key-origin deserialization succeeds exactly on inputs of length at
least 8 and divisible by 4, and on success no step value is rejected — the
path is every 4-byte group after the fingerprint, each interpreted (never
refused) through `ChildNumber::from`. -/
theorem c5_success_iff_length (bytes : List Nat) :
    ((∃ v, keyOriginDeserialize bytes = .ok v) ↔
      (8 ≤ bytes.length ∧ bytes.length % 4 = 0)) ∧
    (∀ fprint dpath, keyOriginDeserialize bytes = .ok (fprint, dpath) →
      dpath = (u32Groups (bytes.drop 4)).map ChildNumber.fromU32) := by
  exact ⟨keyOriginDeserialize_ok_iff bytes,
    fun fprint dpath h => (keyOriginDeserialize_steps bytes fprint dpath h).2⟩

/-- C5 (witness): an 8-byte input whose step has the hardened high bit set is
accepted, with the step interpreted as hardened, not refused. -/
theorem c5_success_iff_length_witness :
    (∃ v, keyOriginDeserialize [1, 2, 3, 4, 255, 255, 255, 255] = .ok v) ∧
    [ChildNumber.hardened 2147483647] =
      (u32Groups ([1, 2, 3, 4, 255, 255, 255, 255].drop 4)).map ChildNumber.fromU32 := by
  obtain ⟨hiff, hsteps⟩ := c5_success_iff_length [1, 2, 3, 4, 255, 255, 255, 255]
  refine ⟨hiff.mpr (by decide), ?_⟩
  exact hsteps [1, 2, 3, 4] [ChildNumber.hardened 2147483647] (by decide)

/-- C6: the script codec is the identity on bytes — serialize returns the
script's raw bytes unchanged, and deserialize always succeeds, wrapping any
input (including the empty string) unchanged; hence both round-trips hold. -/
theorem c6_script_identity :
    (∀ s : Script, scriptSerialize s = s.bytes) ∧
    (∀ bytes : List Nat, scriptDeserialize bytes = .ok ⟨bytes⟩) ∧
    (∀ s : Script, scriptDeserialize (scriptSerialize s) = .ok s) ∧
    scriptDeserialize [] = .ok ⟨[]⟩ := by
  exact ⟨fun s => rfl, fun bytes => rfl, fun s => rfl, rfl⟩

/-- C7: public-key deserialization fails with exactly
`ParseFailed("invalid public key")` when and only when the curve library
rejects the bytes; it succeeds exactly when the library accepts them; and it
rejects the all-zero byte string of every length. -/
theorem c7_pubkey_parse_failure :
    (∀ bytes : List Nat,
      pubkeyDeserialize bytes = .error (.parseFailed "invalid public key") ↔
        pubkeyFromSlice bytes = none) ∧
    (∀ (bytes : List Nat) (pk : PublicKey),
      pubkeyDeserialize bytes = .ok pk ↔ pubkeyFromSlice bytes = some pk) ∧
    (∀ n : Nat, pubkeyDeserialize (List.replicate n 0) =
      .error (.parseFailed "invalid public key")) := by
  refine ⟨?_, ?_, ?_⟩
  · intro bytes
    cases h : pubkeyFromSlice bytes with
    | none => simp [pubkeyDeserialize, h]
    | some pk => simp [pubkeyDeserialize, h]
  · intro bytes pk
    cases h : pubkeyFromSlice bytes with
    | none => simp [pubkeyDeserialize, h]
    | some pk2 => simp [pubkeyDeserialize, h]
  · intro n
    cases n with
    | zero => rfl
    | succ m => simp [List.replicate, pubkeyDeserialize, pubkeyFromSlice]

/-- C8: a key-origin input with a non-empty remainder after the 4-byte
fingerprint whose remainder length is not a multiple of 4 fails with the
end-of-input error raised by the inner step decode. -/
theorem c8_ragged_tail_eof (bytes : List Nat)
    (hgt : 4 < bytes.length) (hmod : (bytes.length - 4) % 4 ≠ 0) :
    keyOriginDeserialize bytes = .error .unexpectedEof := by
  have hmod4 : (bytes.drop 4).length % 4 ≠ 0 := by
    rw [List.length_drop]
    omega
  simp only [keyOriginDeserialize, if_neg (by omega : ¬ bytes.length < 4),
    decodeLoop_error (bytes.drop 4) (Or.inr hmod4)]

/-- C8 (witness): the spec's 6-byte example — a 4-byte fingerprint plus 2
trailing bytes. -/
theorem c8_ragged_tail_eof_witness :
    keyOriginDeserialize [1, 2, 3, 4, 5, 6] = .error .unexpectedEof := by
  exact c8_ragged_tail_eof [1, 2, 3, 4, 5, 6] (by decide) (by decide)

/-- C9: every deserialize operation of the codec layer is total into
value-or-error — for arbitrary input bytes (any length, including empty) it
returns either a value or an error, and every serialize operation is a total
function producing a byte string. -/
theorem c9_deserialize_total (bytes : List Nat) :
    ((∃ s, scriptDeserialize bytes = .ok s) ∨
      (∃ e, scriptDeserialize bytes = .error e)) ∧
    ((∃ pk, pubkeyDeserialize bytes = .ok pk) ∨
      (∃ e, pubkeyDeserialize bytes = .error e)) ∧
    ((∃ v, keyOriginDeserialize bytes = .ok v) ∨
      (∃ e, keyOriginDeserialize bytes = .error e)) ∧
    (∀ s : Script, ∃ out, scriptSerialize s = out) ∧
    (∀ pk : PublicKey, ∃ out, pubkeySerialize pk = out) ∧
    (∀ (fprint : List Nat) (dpath : List ChildNumber),
      ∃ out, keyOriginSerialize fprint dpath = out) := by
  refine ⟨Or.inl ⟨⟨bytes⟩, rfl⟩, ?_, ?_, fun s => ⟨_, rfl⟩, fun pk => ⟨_, rfl⟩,
    fun fprint dpath => ⟨_, rfl⟩⟩
  · cases h : pubkeyDeserialize bytes with
    | ok pk => exact Or.inl ⟨pk, rfl⟩
    | error e => exact Or.inr ⟨e, rfl⟩
  · cases h : keyOriginDeserialize bytes with
    | ok v => exact Or.inl ⟨v, rfl⟩
    | error e => exact Or.inr ⟨e, rfl⟩

/-- C10: public-key serialization always emits the 33-byte compressed form,
so re-serialization reproduces the input only for compressed inputs; the
65-byte uncompressed encoding of the base point is accepted by deserialize
but re-serializes to different (compressed) bytes. -/
theorem c10_serialize_compressed_only :
    (∀ pk : PublicKey, (pubkeySerialize pk).length = 33) ∧
    (∀ (bytes : List Nat) (pk : PublicKey), pubkeyDeserialize bytes = .ok pk →
      pubkeySerialize pk = bytes → bytes.length = 33) ∧
    uncompressedG.length = 65 ∧
    pubkeyDeserialize uncompressedG = .ok ⟨gX, false⟩ ∧
    pubkeySerialize ⟨gX, false⟩ ≠ uncompressedG := by
  have hlen : ∀ pk : PublicKey, (pubkeySerialize pk).length = 33 := by
    intro pk
    simp only [pubkeySerialize, List.length_cons, beBytes_length]
  refine ⟨hlen, ?_, by decide, by decide, by decide⟩
  intro bytes pk hde hser
  rw [← hser, hlen pk]

/-- C10 (witness): the implications instantiated at the compressed encoding
of the base point, which deserializes to the point it re-serializes to. -/
theorem c10_serialize_compressed_only_witness :
    pubkeyDeserialize ((2 : Nat) :: beBytes 32 gX) = .ok ⟨gX, false⟩ ∧
    pubkeySerialize ⟨gX, false⟩ = (2 : Nat) :: beBytes 32 gX ∧
    ((2 : Nat) :: beBytes 32 gX).length = 33 := by
  refine ⟨by decide, by decide, ?_⟩
  exact c10_serialize_compressed_only.2.1 ((2 : Nat) :: beBytes 32 gX) ⟨gX, false⟩
    (by decide) (by decide)
